import Mathlib

/-!
Curve evaluation of `steerlib/src/Curve.cpp`.

A shallow embedding of the `Util::Curve` class: the time-sorted control-point
store, the interval search and the Hermite kernel.

Conventions of the embedding

* `float` values are exact rationals (`ℚ`): rounding is abstracted away, and a
  division whose divisor is zero is only ever used under a hypothesis that
  excludes it.
* `std::vector<CurvePoint>` is a `List CurvePoint`; an element read outside the
  bounds of the vector is undefined behaviour in the source and is the result
  `none` here.
* `unsigned int` values are natural numbers below `2 ^ 32`; the one
  subtraction on them (`nextPoint - 1`) is taken modulo `2 ^ 32`.  The loop
  counter of the interval search stays below the vector length, so results
  that depend on an index found by the loop assume a vector of fewer than
  `2 ^ 32` elements (`uintModulus`).
* A reference parameter is an argument (its value at entry) together with a
  component of the result (its value at exit).  The local `nextPoint` of
  `calculatePoint` is declared without an initial value, so its value at entry
  of `findTimeInterval` is indeterminate: it is an argument of the model.
-/

namespace Util

/-! ## Geometry primitives -/

/-- Modelled from the spec: the point type of `util/Geometry.h` (absent from the
sources at hand), three coordinates with componentwise arithmetic. -/
structure Point where
  x : ℚ
  y : ℚ
  z : ℚ
deriving DecidableEq

/-- Modelled from the spec: the vector type of `util/Geometry.h` (absent from the
sources at hand), three coordinates with componentwise arithmetic. -/
structure Vector where
  x : ℚ
  y : ℚ
  z : ℚ
deriving DecidableEq

/-- Modelled from the spec: `Point * float`, scaling every coordinate. -/
def Point.scale (p : Point) (k : ℚ) : Point :=
  ⟨p.x * k, p.y * k, p.z * k⟩

/-- Modelled from the spec: `Vector * float`, scaling every coordinate. -/
def Vector.scale (v : Vector) (k : ℚ) : Vector :=
  ⟨v.x * k, v.y * k, v.z * k⟩

/-- Modelled from the spec: `Point + Point`, coordinate by coordinate. -/
def Point.add (p q : Point) : Point :=
  ⟨p.x + q.x, p.y + q.y, p.z + q.z⟩

/-- Modelled from the spec: `Point + Vector`, coordinate by coordinate. -/
def Point.addVector (p : Point) (v : Vector) : Point :=
  ⟨p.x + v.x, p.y + v.y, p.z + v.z⟩

/-- Modelled from the spec: the default-constructed point of `util/Geometry.h`,
the origin. -/
def Point.origin : Point :=
  ⟨0, 0, 0⟩

/-! ## Data model -/

/-- A control point: position, tangent and time (`CurvePoint` of `util/Curve.h`). -/
structure CurvePoint where
  position : Point
  tangent : Vector
  time : ℚ
deriving DecidableEq

/-- The state of a `Curve` object: its control points and its type tag. -/
structure Curve where
  controlPoints : List CurvePoint
  type : Int
deriving DecidableEq

/-- Modelled from the spec: the tag of the Hermite kernel, a constant declared in
`util/Curve.h` (absent from the sources at hand). -/
def hermiteCurve : Int := 0

/-- Modelled from the spec: the tag of the Catmull-Rom kernel, a constant declared
in `util/Curve.h` (absent from the sources at hand). -/
def catmullCurve : Int := 1

/-- The number of values of an `unsigned int`. -/
def uintModulus : Nat := 2 ^ 32

/-! ## Sorting -/

/-- The comparison handed to `std::sort`: strictly earlier time. -/
def sortControlPointsByTime (p1 p2 : CurvePoint) : Bool :=
  decide (p1.time < p2.time)

/-- Placement of one element into a list already ordered by `lt`
(helper of `stdSort`). -/
def stdSortInsert {α : Type} (lt : α → α → Bool) (a : α) : List α → List α
  | [] => [a]
  | b :: rest => if lt a b then a :: b :: rest else b :: stdSortInsert lt a rest

/-- The library routine `std::sort(first, last, comp)`.  The C++ standard
promises a rearrangement of the range that is ordered with respect to `comp`
and leaves the relative order of equivalent elements open; this executable
stand-in is one such rearrangement, and every general result below about it
uses only `stdSort_perm` and `stdSort_ordered` (the sample curves, whose times
are distinct, have one possible sorted order). -/
def stdSort {α : Type} (lt : α → α → Bool) : List α → List α
  | [] => []
  | a :: rest => stdSortInsert lt a (stdSort lt rest)

/-- `Curve::sortControlPoints`. -/
def sortControlPoints (c : Curve) : Curve :=
  { c with controlPoints := stdSort sortControlPointsByTime c.controlPoints }

/-! ## Construction and mutation -/

/-- `Curve::Curve(const CurvePoint& startPoint, int curveType)`. -/
def Curve.fromStartPoint (startPoint : CurvePoint) (curveType : Int) : Curve :=
  { controlPoints := [] ++ [startPoint], type := curveType }

/-- `Curve::Curve(const std::vector<CurvePoint>& inputPoints, int curveType)`. -/
def Curve.fromInputPoints (inputPoints : List CurvePoint) (curveType : Int) : Curve :=
  sortControlPoints { controlPoints := inputPoints, type := curveType }

/-- `Curve::addControlPoint`: `push_back`, then sort. -/
def addControlPoint (c : Curve) (inputPoint : CurvePoint) : Curve :=
  sortControlPoints { c with controlPoints := c.controlPoints ++ [inputPoint] }

/-- `Curve::addControlPoints`: one `push_back` per input point, in order, then a
single sort. -/
def addControlPoints (c : Curve) (inputPoints : List CurvePoint) : Curve :=
  sortControlPoints
    { c with controlPoints := inputPoints.foldl (fun acc p => acc ++ [p]) c.controlPoints }

/-! ## Evaluation -/

/-- `Curve::checkRobust`. -/
def checkRobust (c : Curve) : Bool :=
  if c.controlPoints.length < 2 then false else true

/-- The `for` loop of `Curve::findTimeInterval`, started at index `i` with the
elements from `i` on still to visit: the first element whose time exceeds `time`
stores its index into `nextPoint` and leaves the loop; when no element does,
`nextPoint` keeps the value it had. -/
def findTimeIntervalLoop (time : ℚ) : List CurvePoint → Nat → Nat → Nat
  | [], _, nextPoint => nextPoint
  | p :: rest, i, nextPoint =>
    if p.time > time then i else findTimeIntervalLoop time rest (i + 1) nextPoint

/-- `Curve::findTimeInterval`.  The argument `nextPoint` is the value of the
reference parameter at entry; the result is the returned flag with the value of
`nextPoint` at exit.  `back()` of an empty vector is undefined: `none`. -/
def findTimeInterval (c : Curve) (nextPoint : Nat) (time : ℚ) : Option (Bool × Nat) :=
  match c.controlPoints.getLast? with
  | none => none
  | some last =>
    if time > last.time then some (false, nextPoint)
    else some (true, findTimeIntervalLoop time c.controlPoints 0 nextPoint)

/-- `Curve::useHermiteCurve`.  `none` when one of the two element reads is out
of bounds. -/
def useHermiteCurve (curve : Curve) (nextPoint : Nat) (time : ℚ) : Option Point :=
  let prevPoint : Nat := (nextPoint + uintModulus - 1) % uintModulus
  match curve.controlPoints[prevPoint]?, curve.controlPoints[nextPoint]? with
  | some prev, some next =>
    let prevPointPos := prev.position
    let nextPointPos := next.position
    let prevPointTangent := prev.tangent
    let nextPointTangent := next.tangent
    let prevPointTime := prev.time
    let nextPointTime := next.time
    let elapsedTime := time - prevPointTime
    let intervalTime := (time - prevPointTime) / (nextPointTime - prevPointTime)
    let a := prevPointPos.scale (2 * intervalTime ^ 3 - 3 * intervalTime ^ 2 + 1)
    let b := nextPointPos.scale (-2 * intervalTime ^ 3 + 3 * intervalTime ^ 2)
    let c := prevPointTangent.scale
      (elapsedTime ^ 3 / (nextPointTime - prevPointTime) ^ 2
        + -2 * elapsedTime ^ 2 / (nextPointTime - prevPointTime) + elapsedTime)
    let d := nextPointTangent.scale
      (elapsedTime ^ 3 / (nextPointTime - prevPointTime) ^ 2
        - elapsedTime ^ 2 / (nextPointTime - prevPointTime))
    some (((a.add b).addVector c).addVector d)
  | _, _ => none

/-- `Curve::useCatmullCurve`: the kernel is a stub that returns a
default-constructed point (the one-time diagnostic it prints is not modelled). -/
def useCatmullCurve (_c : Curve) (_nextPoint : Nat) (_time : ℚ) : Point :=
  Point.origin

/-- `Curve::calculatePoint`.  `outputPoint` is the value of the reference
parameter at entry and `nextPoint` the indeterminate initial value of the local
of that name; the result is the returned flag with the value of `outputPoint` at
exit, or `none` when the evaluation runs into an out-of-bounds read. -/
def calculatePoint (c : Curve) (outputPoint : Point) (nextPoint : Nat) (time : ℚ) :
    Option (Bool × Point) :=
  if !checkRobust c then some (false, outputPoint)
  else
    match findTimeInterval c nextPoint time with
    | none => none
    | some (false, _) => some (false, outputPoint)
    | some (true, next) =>
      if c.type = hermiteCurve then
        (useHermiteCurve c next time).map (fun p => (true, p))
      else if c.type = catmullCurve then
        some (true, useCatmullCurve c next time)
      else some (true, outputPoint)

/-- A test point on the x axis: position `(px, 0, 0)`, zero tangent, time `t`. -/
def pointAt (t px : ℚ) : CurvePoint :=
  ⟨⟨px, 0, 0⟩, ⟨0, 0, 0⟩, t⟩

/-! ## Predicates used by the statements -/

/-- Ascending by time, every pair. -/
def SortedByTime (l : List CurvePoint) : Prop :=
  l.Pairwise (fun p q => p.time ≤ q.time)

/-- Pairwise distinct times. -/
def DistinctTimes (l : List CurvePoint) : Prop :=
  l.Pairwise (fun p q => p.time ≠ q.time)

/-- Ascending by time, stated on adjacent positions:
`l[i].time ≤ l[i+1].time` for every `i`. -/
def AdjacentSorted (l : List CurvePoint) : Prop :=
  ∀ (i : Nat) (h : i + 1 < l.length), (l.get ⟨i, by omega⟩).time ≤ (l.get ⟨i + 1, h⟩).time

instance (l : List CurvePoint) : Decidable (SortedByTime l) := by
  unfold SortedByTime; infer_instance

instance (l : List CurvePoint) : Decidable (DistinctTimes l) := by
  unfold DistinctTimes; infer_instance

/-- Index `i` is the first position of `l` whose time exceeds `time`: the element
at `i` exists and is later than `time`, every element before it is not. -/
def IsFirstAfter (l : List CurvePoint) (time : ℚ) (i : Nat) : Prop :=
  (∃ p, l[i]? = some p ∧ p.time > time)
    ∧ ∀ (j : Nat) (q : CurvePoint), j < i → l[j]? = some q → q.time ≤ time

/-! ## The blending functions as the specification words them -/

/-- Specification, position weight of the previous point: `2s³ − 3s² + 1`. -/
def h00 (s : ℚ) : ℚ := 2 * s ^ 3 - 3 * s ^ 2 + 1

/-- Specification, position weight of the next point: `−2s³ + 3s²`. -/
def h01 (s : ℚ) : ℚ := -2 * s ^ 3 + 3 * s ^ 2

/-- Specification, weight of the previous tangent: `e³/Δt² − 2e²/Δt + e`. -/
def c0 (e dt : ℚ) : ℚ := e ^ 3 / dt ^ 2 - 2 * e ^ 2 / dt + e

/-- Specification, weight of the next tangent: `e³/Δt² − e²/Δt`. -/
def c1 (e dt : ℚ) : ℚ := e ^ 3 / dt ^ 2 - e ^ 2 / dt

/-! ## Sample curves -/

/-- Two points, at times 0 and 1, positions 0 and 10 on the x axis. -/
def twoPointCurve : Curve :=
  Curve.fromInputPoints [pointAt 0 0, pointAt 1 10] hermiteCurve

/-- Three points, at times 0, 1 and 2, positions 0, 10 and 20 on the x axis. -/
def threePointCurve : Curve :=
  Curve.fromInputPoints [pointAt 0 0, pointAt 1 10, pointAt 2 20] hermiteCurve

/-- Three points of a Catmull-Rom curve, at times 0, 1 and 2, positions 0, 10 and
20 on the x axis. -/
def catmullThreePointCurve : Curve :=
  Curve.fromInputPoints [pointAt 0 0, pointAt 1 10, pointAt 2 20] catmullCurve

/-- The straight-line scenario of the specification: a Hermite curve through
(t=0, pos=(0,0), tan=(1,0)) and (t=1, pos=(1,0), tan=(1,0)). -/
def straightLineCurve : Curve :=
  Curve.fromInputPoints [⟨⟨0, 0, 0⟩, ⟨1, 0, 0⟩, 0⟩, ⟨⟨1, 0, 0⟩, ⟨1, 0, 0⟩, 1⟩] hermiteCurve

/-! ## More predicates and specification-side functions -/

/-- Strictly increasing times along the list. -/
def StrictlyIncreasingTimes (l : List CurvePoint) : Prop :=
  l.Pairwise (fun p q => p.time < q.time)

instance (l : List CurvePoint) : Decidable (StrictlyIncreasingTimes l) := by
  unfold StrictlyIncreasingTimes; infer_instance

/-- One coordinate of the Hermite kernel as a function of the query time (0 where
the kernel has no value). -/
def kernelCoordinate (proj : Point → ℚ) (c : Curve) (nextPoint : Nat) (time : ℚ) : ℚ :=
  match useHermiteCurve c nextPoint time with
  | some r => proj r
  | none => 0

/-- The scalar expression the Hermite kernel evaluates in every coordinate, in
the form of the source: position `p0`, `p1`, tangent `m0`, `m1`, times `t0`,
`t1`. -/
def blendScalar (p0 m0 p1 m1 t0 t1 time : ℚ) : ℚ :=
  p0 * (2 * ((time - t0) / (t1 - t0)) ^ 3 - 3 * ((time - t0) / (t1 - t0)) ^ 2 + 1)
    + p1 * (-2 * ((time - t0) / (t1 - t0)) ^ 3 + 3 * ((time - t0) / (t1 - t0)) ^ 2)
    + m0 * ((time - t0) ^ 3 / (t1 - t0) ^ 2 + -2 * (time - t0) ^ 2 / (t1 - t0) + (time - t0))
    + m1 * ((time - t0) ^ 3 / (t1 - t0) ^ 2 - (time - t0) ^ 2 / (t1 - t0))

/-- The velocity of the kernel on the segment ending at index `nextPoint`, at
query time `time`: the derivative of each coordinate with respect to the query
time. -/
def HasTangentAt (c : Curve) (nextPoint : Nat) (v : Vector) (time : ℚ) : Prop :=
  HasDerivAt (kernelCoordinate Point.x c nextPoint) v.x time
    ∧ HasDerivAt (kernelCoordinate Point.y c nextPoint) v.y time
    ∧ HasDerivAt (kernelCoordinate Point.z c nextPoint) v.z time

/-- Specification: the chord slope `(P1 - P0)/(t1 - t0)` of a segment. -/
def segmentSlope (prev next : CurvePoint) : Vector :=
  ⟨(next.position.x - prev.position.x) / (next.time - prev.time),
   (next.position.y - prev.position.y) / (next.time - prev.time),
   (next.position.z - prev.position.z) / (next.time - prev.time)⟩

/-- Specification: linear interpolation `P0 + ((time - t0)/(t1 - t0))·(P1 - P0)`. -/
def linearInterpolation (prev next : CurvePoint) (time : ℚ) : Point :=
  ⟨prev.position.x
      + (time - prev.time) / (next.time - prev.time) * (next.position.x - prev.position.x),
   prev.position.y
      + (time - prev.time) / (next.time - prev.time) * (next.position.y - prev.position.y),
   prev.position.z
      + (time - prev.time) / (next.time - prev.time) * (next.position.z - prev.position.z)⟩

/-- Specification, weight of the previous tangent on the unit interval:
`s³ − 2s² + s`. -/
def h10 (s : ℚ) : ℚ := s ^ 3 - 2 * s ^ 2 + s

/-- Specification, weight of the next tangent on the unit interval: `s³ − s²`. -/
def h11 (s : ℚ) : ℚ := s ^ 3 - s ^ 2

/-- Specification: the standard cubic Hermite spline on an interval of length
`dt`, one coordinate: `h00(s)·P0 + h10(s)·dt·m0 + h01(s)·P1 + h11(s)·dt·m1`. -/
def standardHermite (p0 m0 p1 m1 dt s : ℚ) : ℚ :=
  h00 s * p0 + h10 s * dt * m0 + h01 s * p1 + h11 s * dt * m1

/-- The non-expanded form kept as a comment in `useHermiteCurve`, one
coordinate: `d + a·e³ + b·e² + c·e` with
`a = -2(P1 - P0)/dt³ + (m0 + m1)/dt²`, `b = 3(P1 - P0)/dt² - (2·m0 + m1)/dt`,
`c = m0`, `d = P0`. -/
def nonExpandedCubic (p0 m0 p1 m1 dt e : ℚ) : ℚ :=
  let a := -2 * (p1 - p0) / dt ^ 3 + (m0 + m1) / dt ^ 2
  let b := 3 * (p1 - p0) / dt ^ 2 - (2 * m0 + m1) / dt
  let c := m0
  let d := p0
  d + a * e ^ 3 + b * e ^ 2 + c * e

/-! ## The sort: rearrangement and order -/

theorem stdSortInsert_perm {α : Type} (lt : α → α → Bool) (a : α) (l : List α) :
    (stdSortInsert lt a l).Perm (a :: l) := by
  induction l with
  | nil => exact List.Perm.refl _
  | cons b rest ih =>
    unfold stdSortInsert
    split
    · exact List.Perm.refl _
    · exact ((List.Perm.cons b ih).trans (List.Perm.swap a b rest))

theorem stdSort_perm {α : Type} (lt : α → α → Bool) (l : List α) :
    (stdSort lt l).Perm l := by
  induction l with
  | nil => exact List.Perm.refl _
  | cons a rest ih =>
    unfold stdSort
    exact (stdSortInsert_perm lt a _).trans (List.Perm.cons a ih)

theorem stdSortInsert_ordered (a : CurvePoint) (l : List CurvePoint) (hl : SortedByTime l) :
    SortedByTime (stdSortInsert sortControlPointsByTime a l) := by
  induction l with
  | nil => simp [stdSortInsert, SortedByTime]
  | cons b rest ih =>
    unfold SortedByTime at hl ih ⊢
    rw [List.pairwise_cons] at hl
    unfold stdSortInsert
    split
    · rename_i hab
      have hab2 : a.time < b.time := by simpa [sortControlPointsByTime] using hab
      refine List.pairwise_cons.mpr ⟨?_, List.pairwise_cons.mpr hl⟩
      intro q hq
      rcases List.mem_cons.mp hq with rfl | hq
      · exact le_of_lt hab2
      · exact le_trans (le_of_lt hab2) (hl.1 q hq)
    · rename_i hab
      have hba : b.time ≤ a.time := by
        have : ¬ a.time < b.time := by simpa [sortControlPointsByTime] using hab
        exact not_lt.mp this
      refine List.pairwise_cons.mpr ⟨?_, ih hl.2⟩
      intro q hq
      have hq2 : q ∈ a :: rest := (stdSortInsert_perm _ a rest).subset hq
      rcases List.mem_cons.mp hq2 with rfl | hq2
      · exact hba
      · exact hl.1 q hq2

theorem stdSort_ordered (l : List CurvePoint) :
    SortedByTime (stdSort sortControlPointsByTime l) := by
  induction l with
  | nil => simp [stdSort, SortedByTime]
  | cons a rest ih =>
    unfold stdSort
    exact stdSortInsert_ordered a _ ih

theorem adjacentSorted_of_sortedByTime (l : List CurvePoint) (h : SortedByTime l) :
    AdjacentSorted l := by
  intro i hi
  exact List.pairwise_iff_get.mp h ⟨i, by omega⟩ ⟨i + 1, hi⟩ (by simp)

theorem pushBack_foldl (inputPoints acc : List CurvePoint) :
    inputPoints.foldl (fun acc p => acc ++ [p]) acc = acc ++ inputPoints := by
  induction inputPoints generalizing acc with
  | nil => simp
  | cons p rest ih => simp [List.foldl_cons, ih]

theorem addControlPoints_controlPoints (c : Curve) (inputPoints : List CurvePoint) :
    (addControlPoints c inputPoints).controlPoints
      = stdSort sortControlPointsByTime (c.controlPoints ++ inputPoints) := by
  simp [addControlPoints, sortControlPoints, pushBack_foldl]

theorem addControlPoint_controlPoints (c : Curve) (p : CurvePoint) :
    (addControlPoint c p).controlPoints
      = stdSort sortControlPointsByTime (c.controlPoints ++ [p]) := by
  simp [addControlPoint, sortControlPoints]

/-- A list that is ordered by time and has pairwise distinct times is strictly
ascending. -/
theorem strict_of_sorted_distinct (l : List CurvePoint) (hs : SortedByTime l)
    (hd : DistinctTimes l) : l.Pairwise (fun p q => p.time < q.time) := by
  unfold SortedByTime at hs
  unfold DistinctTimes at hd
  exact (hs.and hd).imp (fun h => lt_of_le_of_ne h.1 h.2)

/-- C4: sortedness is an invariant of the curve state. After either constructor
and after every `addControlPoint` or `addControlPoints` call, on any curve and
with any input points, the control points are ascending by time: every pair in
list order, and in particular `controlPoints[i].time ≤ controlPoints[i+1].time`
for every adjacent pair. -/
theorem sorted_after_every_mutation :
    (∀ (p : CurvePoint) (ty : Int),
        SortedByTime (Curve.fromStartPoint p ty).controlPoints
          ∧ AdjacentSorted (Curve.fromStartPoint p ty).controlPoints)
    ∧ (∀ (l : List CurvePoint) (ty : Int),
        SortedByTime (Curve.fromInputPoints l ty).controlPoints
          ∧ AdjacentSorted (Curve.fromInputPoints l ty).controlPoints)
    ∧ (∀ (c : Curve) (p : CurvePoint),
        SortedByTime (addControlPoint c p).controlPoints
          ∧ AdjacentSorted (addControlPoint c p).controlPoints)
    ∧ (∀ (c : Curve) (l : List CurvePoint),
        SortedByTime (addControlPoints c l).controlPoints
          ∧ AdjacentSorted (addControlPoints c l).controlPoints) := by
  have key : ∀ l : List CurvePoint, SortedByTime l → SortedByTime l ∧ AdjacentSorted l :=
    fun l h => ⟨h, adjacentSorted_of_sortedByTime l h⟩
  refine ⟨fun p ty => key _ ?_, fun l ty => key _ ?_, fun c p => key _ ?_,
    fun c l => key _ ?_⟩
  · simp [Curve.fromStartPoint, SortedByTime]
  · exact stdSort_ordered l
  · rw [addControlPoint_controlPoints]; exact stdSort_ordered _
  · rw [addControlPoints_controlPoints]; exact stdSort_ordered _

/-- C6: adding points neither drops nor alters any point. The sequence after
`addControlPoints(pts)` is a rearrangement of `old ++ pts` and the count grows by
the length of `pts`; after `addControlPoint(p)` it is a rearrangement of
`old ++ [p]` and the count grows by one, whatever the time of `p`. -/
theorem add_keeps_every_point (c : Curve) (pts : List CurvePoint) (p : CurvePoint) :
    (addControlPoints c pts).controlPoints.Perm (c.controlPoints ++ pts)
    ∧ (addControlPoints c pts).controlPoints.length = c.controlPoints.length + pts.length
    ∧ (addControlPoint c p).controlPoints.Perm (c.controlPoints ++ [p])
    ∧ (addControlPoint c p).controlPoints.length = c.controlPoints.length + 1 := by
  have h1 : (addControlPoints c pts).controlPoints.Perm (c.controlPoints ++ pts) := by
    rw [addControlPoints_controlPoints]; exact stdSort_perm _ _
  have h2 : (addControlPoint c p).controlPoints.Perm (c.controlPoints ++ [p]) := by
    rw [addControlPoint_controlPoints]; exact stdSort_perm _ _
  refine ⟨h1, ?_, h2, ?_⟩
  · rw [h1.length_eq, List.length_append]
  · rw [h2.length_eq, List.length_append, List.length_singleton]

/-! ## The interval search -/

theorem twoPointCurve_eq : twoPointCurve = ⟨[pointAt 0 0, pointAt 1 10], 0⟩ := by decide

theorem threePointCurve_eq :
    threePointCurve = ⟨[pointAt 0 0, pointAt 1 10, pointAt 2 20], 0⟩ := by decide

theorem findTimeIntervalLoop_found (time : ℚ) :
    ∀ (l : List CurvePoint) (i nextPoint k : Nat), IsFirstAfter l time k →
      findTimeIntervalLoop time l i nextPoint = i + k := by
  intro l
  induction l with
  | nil =>
    intro i nextPoint k h
    obtain ⟨⟨p, hp, _⟩, _⟩ := h
    simp at hp
  | cons a rest ih =>
    intro i nextPoint k h
    obtain ⟨⟨p, hp, hgt⟩, hbefore⟩ := h
    cases k with
    | zero =>
      simp only [List.getElem?_cons_zero, Option.some.injEq] at hp
      subst hp
      simp [findTimeIntervalLoop, hgt]
    | succ k =>
      have ha : a.time ≤ time := hbefore 0 a (Nat.succ_pos k) (by simp)
      have hrest : IsFirstAfter rest time k := by
        refine ⟨⟨p, by simpa using hp, hgt⟩, ?_⟩
        intro j q hj hq
        exact hbefore (j + 1) q (Nat.succ_lt_succ hj) (by simpa using hq)
      have hnot : ¬ a.time > time := not_lt.mpr ha
      simp only [findTimeIntervalLoop, hnot, if_false]
      rw [ih (i + 1) nextPoint k hrest]
      omega

theorem findTimeIntervalLoop_untouched (time : ℚ) :
    ∀ (l : List CurvePoint) (i nextPoint : Nat), (∀ p ∈ l, p.time ≤ time) →
      findTimeIntervalLoop time l i nextPoint = nextPoint := by
  intro l
  induction l with
  | nil => intro i nextPoint _; rfl
  | cons a rest ih =>
    intro i nextPoint h
    have hnot : ¬ a.time > time := not_lt.mpr (h a (List.mem_cons_self a rest))
    simp only [findTimeIntervalLoop, hnot, if_false]
    exact ih (i + 1) nextPoint (fun p hp => h p (List.mem_cons_of_mem a hp))

theorem exists_isFirstAfter (time : ℚ) :
    ∀ (l : List CurvePoint), (∃ p ∈ l, p.time > time) → ∃ k, IsFirstAfter l time k := by
  intro l
  induction l with
  | nil => rintro ⟨p, hp, _⟩; simp at hp
  | cons a rest ih =>
    rintro ⟨p, hp, hgt⟩
    by_cases ha : a.time > time
    · exact ⟨0, ⟨a, by simp, ha⟩, fun j q hj _ => absurd hj (Nat.not_lt_zero j)⟩
    · have hin : p ∈ rest := by
        rcases List.mem_cons.mp hp with rfl | h
        · exact absurd hgt ha
        · exact h
      obtain ⟨k, ⟨q, hq, hqgt⟩, hbefore⟩ := ih ⟨p, hin, hgt⟩
      refine ⟨k + 1, ⟨q, by simpa using hq, hqgt⟩, ?_⟩
      intro j r hj hr
      cases j with
      | zero =>
        simp only [List.getElem?_cons_zero, Option.some.injEq] at hr
        subst hr
        exact not_lt.mp ha
      | succ j => exact hbefore j r (by omega) (by simpa using hr)

/-- In a list ordered by time no element is later than the last one. -/
theorem le_last_of_sorted (l : List CurvePoint) (last : CurvePoint)
    (hs : SortedByTime l) (hl : l.getLast? = some last) :
    ∀ p ∈ l, p.time ≤ last.time := by
  obtain ⟨init, rfl⟩ := List.getLast?_eq_some_iff.mp hl
  unfold SortedByTime at hs
  rw [List.pairwise_append] at hs
  intro p hp
  rcases List.mem_append.mp hp with h | h
  · exact hs.2.2 p h last (by simp)
  · simp only [List.mem_singleton] at h
    subst h
    exact le_refl _

/-- The search on a query that is not past the end: success, and the index
written is the one the loop leaves. -/
theorem findTimeInterval_in_range (c : Curve) (nextPoint : Nat) (time : ℚ)
    (last : CurvePoint) (hl : c.controlPoints.getLast? = some last)
    (ht : time ≤ last.time) :
    findTimeInterval c nextPoint time
      = some (true, findTimeIntervalLoop time c.controlPoints 0 nextPoint) := by
  have hnot : ¬ time > last.time := not_lt.mpr ht
  simp [findTimeInterval, hl, hnot]

theorem findTimeInterval_past_end (c : Curve) (nextPoint : Nat) (time : ℚ)
    (last : CurvePoint) (hl : c.controlPoints.getLast? = some last)
    (ht : time > last.time) :
    findTimeInterval c nextPoint time = some (false, nextPoint) := by
  simp [findTimeInterval, hl, ht]

/-- The search yields the first index after the query whenever there is one and
the query is not past the end. -/
theorem findTimeInterval_first_after (c : Curve) (nextPoint : Nat) (time : ℚ)
    (last : CurvePoint) (k : Nat) (hl : c.controlPoints.getLast? = some last)
    (ht : time ≤ last.time) (hk : IsFirstAfter c.controlPoints time k) :
    findTimeInterval c nextPoint time = some (true, k) := by
  rw [findTimeInterval_in_range c nextPoint time last hl ht,
    findTimeIntervalLoop_found time c.controlPoints 0 nextPoint k hk]
  simp

/-- In a strictly ascending list, the query that equals the time of element `k`
has element `k + 1` as the first one after it. -/
theorem isFirstAfter_succ_of_strict (l : List CurvePoint) (k : Nat) (p : CurvePoint)
    (hs : SortedByTime l) (hd : DistinctTimes l) (hk : k + 1 < l.length)
    (hp : l[k]? = some p) : IsFirstAfter l p.time (k + 1) := by
  have hstrict := List.pairwise_iff_getElem.mp (strict_of_sorted_distinct l hs hd)
  obtain ⟨hk0, hpk⟩ := List.getElem?_eq_some_iff.mp hp
  refine ⟨⟨l[k + 1], List.getElem?_eq_getElem hk, ?_⟩, ?_⟩
  · have := hstrict k (k + 1) hk0 hk (Nat.lt_succ_self k)
    rw [hpk] at this
    exact this
  · intro j q hj hq
    obtain ⟨hj0, hqj⟩ := List.getElem?_eq_some_iff.mp hq
    rcases Nat.lt_or_eq_of_le (Nat.lt_succ_iff.mp hj) with hlt | heq
    · have := hstrict j k hj0 hk0 hlt
      rw [hpk, hqj] at this
      exact le_of_lt this
    · subst heq
      rw [← hpk, ← hqj]

/-! ## Claims on the interval search -/

/-- C7, as stated, fails at a query equal to the last time: on the sorted
two-point curve with times 0 and 1 and query time 1 the search reports success
but no index has a time above the query; the index it leaves is the value the
variable had at entry (0, or 5), and index 0 is not a first index after the
query. -/
theorem first_after_at_last_time_counterexample :
    SortedByTime twoPointCurve.controlPoints
    ∧ 2 ≤ twoPointCurve.controlPoints.length
    ∧ twoPointCurve.controlPoints.getLast? = some (pointAt 1 10)
    ∧ (1 : ℚ) ≤ (pointAt 1 10).time
    ∧ findTimeInterval twoPointCurve 0 1 = some (true, 0)
    ∧ findTimeInterval twoPointCurve 5 1 = some (true, 5)
    ∧ ¬ IsFirstAfter twoPointCurve.controlPoints 1 0
    ∧ ¬ IsFirstAfter twoPointCurve.controlPoints 1 5 := by
  rw [twoPointCurve_eq]
  refine ⟨by decide, by decide, by decide, by decide, ?_, ?_, ?_, ?_⟩
  · simp [findTimeInterval, findTimeIntervalLoop, pointAt]
  · simp [findTimeInterval, findTimeIntervalLoop, pointAt]
  · simp [IsFirstAfter, pointAt]
  · simp [IsFirstAfter, pointAt]

/-- C7, amended: for every query time strictly below the last control point's
time the interval search reports success and the index it yields is the
smallest index whose control point has a time strictly greater than the query
(neither sortedness nor the number of points is needed for this). -/
theorem findTimeInterval_first_after_before_last (c : Curve) (nextPoint : Nat) (time : ℚ)
    (last : CurvePoint) (hl : c.controlPoints.getLast? = some last)
    (ht : time < last.time) :
    ∃ i, findTimeInterval c nextPoint time = some (true, i)
      ∧ IsFirstAfter c.controlPoints time i := by
  obtain ⟨k, hk⟩ := exists_isFirstAfter time c.controlPoints
    ⟨last, List.mem_of_getLast?_eq_some hl, ht⟩
  exact ⟨k, findTimeInterval_first_after c nextPoint time last k hl (le_of_lt ht) hk, hk⟩

/-- Witness of the amended C7: three points at times 0, 1, 2 and the query 1/2. -/
theorem findTimeInterval_first_after_before_last_witness :
    ∃ i, findTimeInterval threePointCurve 0 (1 / 2) = some (true, i)
      ∧ IsFirstAfter threePointCurve.controlPoints (1 / 2) i :=
  findTimeInterval_first_after_before_last threePointCurve 0 (1 / 2) (pointAt 2 20)
    (by decide) (by rw [pointAt]; norm_num)

/-- C8, as stated, fails: on the sorted three-point curve with times 0, 1, 2 the
query equal to the time of control point 1 gets next index 2 (the following
interval `[1, 2]`), not next index 1. -/
theorem tie_break_counterexample :
    SortedByTime threePointCurve.controlPoints
    ∧ DistinctTimes threePointCurve.controlPoints
    ∧ threePointCurve.controlPoints[1]? = some (pointAt 1 10)
    ∧ findTimeInterval threePointCurve 0 (pointAt 1 10).time = some (true, 2)
    ∧ findTimeInterval threePointCurve 0 (pointAt 1 10).time ≠ some (true, 1) := by
  rw [threePointCurve_eq]
  refine ⟨by decide, by decide, by decide, ?_, ?_⟩
  · norm_num [findTimeInterval, findTimeIntervalLoop, pointAt]
  · norm_num [findTimeInterval, findTimeIntervalLoop, pointAt]

/-- C8, amended: on a time-sorted curve with pairwise distinct times, a query
time equal to the time of a control point `k` that is not the last one is placed
into the following interval `[k, k+1]`: the next index the search yields is
`k + 1`. -/
theorem tie_goes_to_following_interval (c : Curve) (nextPoint k : Nat) (p : CurvePoint)
    (hs : SortedByTime c.controlPoints) (hd : DistinctTimes c.controlPoints)
    (hk : k + 1 < c.controlPoints.length) (hp : c.controlPoints[k]? = some p) :
    findTimeInterval c nextPoint p.time = some (true, k + 1) := by
  have hne : c.controlPoints ≠ [] := by
    intro h; rw [h] at hk; simp at hk
  have hl := List.getLast?_eq_getLast c.controlPoints hne
  exact findTimeInterval_first_after c nextPoint p.time _ (k + 1) hl
    (le_last_of_sorted _ _ hs hl p (List.getElem?_mem hp))
    (isFirstAfter_succ_of_strict _ k p hs hd hk hp)

/-- Witness of the amended C8: control point 1 of the three-point curve. -/
theorem tie_goes_to_following_interval_witness :
    findTimeInterval threePointCurve 7 (pointAt 1 10).time = some (true, 1 + 1) :=
  tie_goes_to_following_interval threePointCurve 7 1 (pointAt 1 10)
    (by decide) (by decide) (by decide) (by decide)

/-- C9, as stated, fails: on the sorted two-point curve with times 0 and 1 the
query time -1, below the first time, gets next index 0, not 1; the Hermite
kernel then has no previous point (`0 - 1` wraps to `2 ^ 32 - 1`, out of bounds)
and the evaluation does not come back with a position. -/
theorem below_first_counterexample :
    SortedByTime twoPointCurve.controlPoints
    ∧ 2 ≤ twoPointCurve.controlPoints.length
    ∧ twoPointCurve.controlPoints.head? = some (pointAt 0 0)
    ∧ (-1 : ℚ) < (pointAt 0 0).time
    ∧ findTimeInterval twoPointCurve 1 (-1) = some (true, 0)
    ∧ useHermiteCurve twoPointCurve 0 (-1) = none
    ∧ calculatePoint twoPointCurve Point.origin 1 (-1) = none := by
  rw [twoPointCurve_eq]
  refine ⟨by decide, by decide, by decide, by rw [pointAt]; norm_num, ?_, ?_, ?_⟩
  · simp [findTimeInterval, findTimeIntervalLoop, pointAt]
  · simp [useHermiteCurve, uintModulus]
  · norm_num [calculatePoint, checkRobust, findTimeInterval, findTimeIntervalLoop, pointAt,
      useHermiteCurve, uintModulus, hermiteCurve]

/-- C9, amended: on a time-sorted curve with at least 2 control points, for a
query time strictly below the first control point's time the interval search
reports success and yields next index 0, the first control point itself (so no
control point precedes the query and the evaluation is not on interval
`[0, 1]`). -/
theorem below_first_yields_index_zero (c : Curve) (nextPoint : Nat) (time : ℚ)
    (first : CurvePoint) (hs : SortedByTime c.controlPoints)
    (h2 : 2 ≤ c.controlPoints.length) (hf : c.controlPoints.head? = some first)
    (ht : time < first.time) :
    findTimeInterval c nextPoint time = some (true, 0) := by
  have hne : c.controlPoints ≠ [] := by
    intro h; rw [h] at h2; simp at h2
  have hl := List.getLast?_eq_getLast c.controlPoints hne
  have hmem : first ∈ c.controlPoints := List.mem_of_mem_head? hf
  have hle := le_last_of_sorted _ _ hs hl first hmem
  refine findTimeInterval_first_after c nextPoint time _ 0 hl (le_of_lt (lt_of_lt_of_le ht hle))
    ⟨⟨first, ?_, ht⟩, fun j q hj _ => absurd hj (Nat.not_lt_zero j)⟩
  cases hc : c.controlPoints with
  | nil => exact absurd hc hne
  | cons a rest =>
    rw [hc] at hf
    simpa using hf

/-- Witness of the amended C9: the three-point curve and the query -3. -/
theorem below_first_yields_index_zero_witness :
    findTimeInterval threePointCurve 2 (-3) = some (true, 0) :=
  below_first_yields_index_zero threePointCurve 2 (-3) (pointAt 0 0)
    (by decide) (by decide) (by decide) (by rw [pointAt]; norm_num)

/-! ## The Hermite kernel -/

theorem prevPoint_of_pos (i : Nat) (h1 : 1 ≤ i) (hi : i < uintModulus) :
    (i + uintModulus - 1) % uintModulus = i - 1 := by
  have e : i + uintModulus - 1 = (i - 1) + uintModulus := by omega
  rw [e, Nat.add_mod_right]
  exact Nat.mod_eq_of_lt (by omega)

/-- The kernel reads two elements only: on any curve it agrees with the kernel of
the two-point curve made of the previous and the next point. -/
theorem useHermiteCurve_local (c : Curve) (i : Nat) (time : ℚ) (prev next : CurvePoint)
    (h1 : 1 ≤ i) (hi : i < uintModulus)
    (hprev : c.controlPoints[i - 1]? = some prev) (hnext : c.controlPoints[i]? = some next) :
    useHermiteCurve c i time = useHermiteCurve ⟨[prev, next], hermiteCurve⟩ 1 time := by
  have e1 : (1 + uintModulus - 1) % uintModulus = 0 := by
    rw [prevPoint_of_pos 1 (le_refl 1) (by decide)]
  simp only [useHermiteCurve, prevPoint_of_pos i h1 hi, hprev, hnext, e1,
    List.getElem?_cons_zero, List.getElem?_cons_succ]

/-- Evaluated at the time of the previous point, the kernel returns the position
of the previous point. -/
theorem useHermiteCurve_at_prev (prev next : CurvePoint) :
    useHermiteCurve ⟨[prev, next], hermiteCurve⟩ 1 prev.time = some prev.position := by
  have e1 : (1 + uintModulus - 1) % uintModulus = 0 := by
    rw [prevPoint_of_pos 1 (le_refl 1) (by decide)]
  simp [useHermiteCurve, e1, Point.scale, Point.add, Point.addVector, Vector.scale]

theorem useHermiteCurve_two_isSome (prev next : CurvePoint) (time : ℚ) :
    ∃ r, useHermiteCurve ⟨[prev, next], hermiteCurve⟩ 1 time = some r := by
  have e1 : (1 + uintModulus - 1) % uintModulus = 0 := by
    rw [prevPoint_of_pos 1 (le_refl 1) (by decide)]
  simp [useHermiteCurve, e1]

/-- C10: the Hermite kernel is the blend the specification gives. For a next
index `i ≥ 1` with both `controlPoints[i-1]` (position `P0`, tangent `m0`, time
`t0`) and `controlPoints[i]` (`P1`, `m1`, `t1`) present and `t1 - t0 ≠ 0`, every
coordinate of `useHermiteCurve(i, time)` is
`P0·h00(s) + P1·h01(s) + m0·c0(e, Δt) + m1·c1(e, Δt)` with
`s = (time - t0)/(t1 - t0)`, `e = time - t0`, `Δt = t1 - t0`. -/
theorem useHermiteCurve_blend (c : Curve) (i : Nat) (time : ℚ) (prev next : CurvePoint)
    (h1 : 1 ≤ i) (hi : i < uintModulus)
    (hprev : c.controlPoints[i - 1]? = some prev) (hnext : c.controlPoints[i]? = some next)
    (_hdt : next.time - prev.time ≠ 0) :
    ∃ r, useHermiteCurve c i time = some r
      ∧ r.x = prev.position.x * h00 ((time - prev.time) / (next.time - prev.time))
            + next.position.x * h01 ((time - prev.time) / (next.time - prev.time))
            + prev.tangent.x * c0 (time - prev.time) (next.time - prev.time)
            + next.tangent.x * c1 (time - prev.time) (next.time - prev.time)
      ∧ r.y = prev.position.y * h00 ((time - prev.time) / (next.time - prev.time))
            + next.position.y * h01 ((time - prev.time) / (next.time - prev.time))
            + prev.tangent.y * c0 (time - prev.time) (next.time - prev.time)
            + next.tangent.y * c1 (time - prev.time) (next.time - prev.time)
      ∧ r.z = prev.position.z * h00 ((time - prev.time) / (next.time - prev.time))
            + next.position.z * h01 ((time - prev.time) / (next.time - prev.time))
            + prev.tangent.z * c0 (time - prev.time) (next.time - prev.time)
            + next.tangent.z * c1 (time - prev.time) (next.time - prev.time) := by
  have e1 : (1 + uintModulus - 1) % uintModulus = 0 := by
    rw [prevPoint_of_pos 1 (le_refl 1) (by decide)]
  rw [useHermiteCurve_local c i time prev next h1 hi hprev hnext]
  simp only [useHermiteCurve, e1, List.getElem?_cons_zero, List.getElem?_cons_succ,
    Point.scale, Point.add, Point.addVector, Vector.scale, h00, h01, c0, c1]
  refine ⟨_, rfl, ?_, ?_, ?_⟩ <;> ring

/-- Witness of C10: the segment from (t=0, x=0, tangent 1) to (t=2, x=4,
tangent 3), evaluated at time 1. -/
theorem useHermiteCurve_blend_witness :
    ∃ r, useHermiteCurve
          ⟨[⟨⟨0, 0, 0⟩, ⟨1, 0, 0⟩, 0⟩, ⟨⟨4, 0, 0⟩, ⟨3, 0, 0⟩, 2⟩], hermiteCurve⟩ 1 1 = some r
      ∧ r.x = 0 * h00 ((1 - 0) / (2 - 0)) + 4 * h01 ((1 - 0) / (2 - 0))
            + 1 * c0 (1 - 0) (2 - 0) + 3 * c1 (1 - 0) (2 - 0)
      ∧ r.y = 0 * h00 ((1 - 0) / (2 - 0)) + 0 * h01 ((1 - 0) / (2 - 0))
            + 0 * c0 (1 - 0) (2 - 0) + 0 * c1 (1 - 0) (2 - 0)
      ∧ r.z = 0 * h00 ((1 - 0) / (2 - 0)) + 0 * h01 ((1 - 0) / (2 - 0))
            + 0 * c0 (1 - 0) (2 - 0) + 0 * c1 (1 - 0) (2 - 0) :=
  useHermiteCurve_blend
    ⟨[⟨⟨0, 0, 0⟩, ⟨1, 0, 0⟩, 0⟩, ⟨⟨4, 0, 0⟩, ⟨3, 0, 0⟩, 2⟩], hermiteCurve⟩ 1 1
    ⟨⟨0, 0, 0⟩, ⟨1, 0, 0⟩, 0⟩ ⟨⟨4, 0, 0⟩, ⟨3, 0, 0⟩, 2⟩
    (by decide) (by decide) (by decide) (by decide) (by norm_num)

/-! ## Evaluation through `calculatePoint` -/

theorem checkRobust_of_two (c : Curve) (h2 : 2 ≤ c.controlPoints.length) :
    checkRobust c = true := by
  have : ¬ c.controlPoints.length < 2 := by omega
  simp [checkRobust, this]

/-- On a curve with at least two points, once the search has succeeded with
index `k` the result is the dispatch on the type tag. -/
theorem calculatePoint_of_search (c : Curve) (outputPoint : Point)
    (nextPoint k : Nat) (time : ℚ) (h2 : 2 ≤ c.controlPoints.length)
    (hfind : findTimeInterval c nextPoint time = some (true, k)) :
    calculatePoint c outputPoint nextPoint time
      = if c.type = hermiteCurve then (useHermiteCurve c k time).map (fun p => (true, p))
        else if c.type = catmullCurve then some (true, useCatmullCurve c k time)
        else some (true, outputPoint) := by
  simp [calculatePoint, checkRobust_of_two c h2, hfind]

/-- On a Hermite curve with at least two points, once the search has succeeded
with index `k` the result is that of the kernel at `k`. -/
theorem calculatePoint_hermite_of_search (c : Curve) (outputPoint : Point)
    (nextPoint k : Nat) (time : ℚ) (h2 : 2 ≤ c.controlPoints.length)
    (hty : c.type = hermiteCurve)
    (hfind : findTimeInterval c nextPoint time = some (true, k)) :
    calculatePoint c outputPoint nextPoint time
      = (useHermiteCurve c k time).map (fun p => (true, p)) := by
  simp [calculatePoint, checkRobust_of_two c h2, hfind, hty]

/-- On a curve with at least two points, once the search has succeeded the
evaluation never comes back with the failure flag. -/
theorem calculatePoint_not_false_of_search (c : Curve) (outputPoint p : Point)
    (nextPoint k : Nat) (time : ℚ) (h2 : 2 ≤ c.controlPoints.length)
    (hfind : findTimeInterval c nextPoint time = some (true, k)) :
    calculatePoint c outputPoint nextPoint time ≠ some (false, p) := by
  rw [calculatePoint_of_search c outputPoint nextPoint k time h2 hfind]
  by_cases hh : c.type = hermiteCurve
  · rw [if_pos hh]
    cases hk : useHermiteCurve c k time <;> simp
  · rw [if_neg hh]
    by_cases hc : c.type = catmullCurve
    · rw [if_pos hc]; simp
    · rw [if_neg hc]; simp

/-- On a curve with at least two points, once the search has succeeded with an
index `k` that has a previous point, the evaluation reports success. -/
theorem calculatePoint_success_of_search (c : Curve) (outputPoint : Point)
    (nextPoint k : Nat) (time : ℚ) (prev next : CurvePoint)
    (h2 : 2 ≤ c.controlPoints.length) (h1 : 1 ≤ k) (hk : k < uintModulus)
    (hprev : c.controlPoints[k - 1]? = some prev) (hnext : c.controlPoints[k]? = some next)
    (hfind : findTimeInterval c nextPoint time = some (true, k)) :
    ∃ p, calculatePoint c outputPoint nextPoint time = some (true, p) := by
  rw [calculatePoint_of_search c outputPoint nextPoint k time h2 hfind]
  by_cases hh : c.type = hermiteCurve
  · obtain ⟨r, hr⟩ := useHermiteCurve_two_isSome prev next time
    rw [← useHermiteCurve_local c k time prev next h1 hk hprev hnext] at hr
    exact ⟨r, by rw [if_pos hh, hr]; rfl⟩
  · rw [if_neg hh]
    by_cases hc : c.type = catmullCurve
    · exact ⟨_, by rw [if_pos hc]⟩
    · exact ⟨_, by rw [if_neg hc]⟩

/-- The search at the time of a control point that is not the last one of a
strictly ascending curve yields the index after it. -/
theorem findTimeInterval_at_point_time (c : Curve) (nextPoint k : Nat) (p : CurvePoint)
    (hs : SortedByTime c.controlPoints) (hd : DistinctTimes c.controlPoints)
    (hk : k + 1 < c.controlPoints.length) (hp : c.controlPoints[k]? = some p) :
    findTimeInterval c nextPoint p.time = some (true, k + 1) := by
  have hne : c.controlPoints ≠ [] := by
    intro h; rw [h] at hk; simp at hk
  have hl := List.getLast?_eq_getLast c.controlPoints hne
  exact findTimeInterval_first_after c nextPoint p.time _ (k + 1) hl
    (le_last_of_sorted _ _ hs hl p (List.getElem?_mem hp))
    (isFirstAfter_succ_of_strict _ k p hs hd hk hp)

/-! ## Claims on `calculatePoint` -/

/-- C1, as stated, fails at the last control point. On the Hermite curve with
points at times 0, 1, 2 and positions 0, 10, 20, the query at the last time 2
passes the range check while the loop assigns no index, so the kernel works on
whatever the uninitialised `nextPoint` held: with the value 1 the result is the
position -40 (the segment `[0, 1]` extrapolated), not 20; with the value 0 the
kernel reads out of bounds. -/
theorem hermite_at_last_point_counterexample :
    threePointCurve.type = hermiteCurve
    ∧ 2 ≤ threePointCurve.controlPoints.length
    ∧ DistinctTimes threePointCurve.controlPoints
    ∧ threePointCurve.controlPoints[2]? = some (pointAt 2 20)
    ∧ calculatePoint threePointCurve Point.origin 1 (pointAt 2 20).time
        = some (true, ⟨-40, 0, 0⟩)
    ∧ calculatePoint threePointCurve Point.origin 1 (pointAt 2 20).time
        ≠ some (true, (pointAt 2 20).position)
    ∧ calculatePoint threePointCurve Point.origin 0 (pointAt 2 20).time = none := by
  rw [threePointCurve_eq]
  refine ⟨by decide, by decide, by decide, by decide, ?_, ?_, ?_⟩
  · norm_num [calculatePoint, checkRobust, findTimeInterval, findTimeIntervalLoop, pointAt,
      useHermiteCurve, uintModulus, hermiteCurve, Point.scale, Point.add, Point.addVector,
      Vector.scale]
  · norm_num [calculatePoint, checkRobust, findTimeInterval, findTimeIntervalLoop, pointAt,
      useHermiteCurve, uintModulus, hermiteCurve, Point.scale, Point.add, Point.addVector,
      Vector.scale]
  · norm_num [calculatePoint, checkRobust, findTimeInterval, findTimeIntervalLoop, pointAt,
      useHermiteCurve, uintModulus, hermiteCurve]

/-- C1, amended: on every Hermite curve whose control points are time-sorted
with pairwise distinct times, for every index `i` except the last,
`calculatePoint(controlPoints[i].time)` succeeds and its output position equals
`controlPoints[i].position`, whatever the entry values of the output and of the
uninitialised index. -/
theorem hermite_passes_through_all_but_last (c : Curve) (outputPoint : Point)
    (nextPoint i : Nat) (p : CurvePoint)
    (hty : c.type = hermiteCurve) (hsize : c.controlPoints.length < uintModulus)
    (hs : SortedByTime c.controlPoints) (hd : DistinctTimes c.controlPoints)
    (hi : i + 1 < c.controlPoints.length) (hp : c.controlPoints[i]? = some p) :
    calculatePoint c outputPoint nextPoint p.time = some (true, p.position) := by
  have hfind := findTimeInterval_at_point_time c nextPoint i p hs hd hi hp
  rw [calculatePoint_hermite_of_search c outputPoint nextPoint (i + 1) p.time (by omega) hty
    hfind]
  have hnext : c.controlPoints[i + 1]? = some c.controlPoints[i + 1] :=
    List.getElem?_eq_getElem hi
  rw [useHermiteCurve_local c (i + 1) p.time p c.controlPoints[i + 1] (by omega) (by omega)
    (by simpa using hp) hnext, useHermiteCurve_at_prev]
  rfl

/-- Witness of the amended C1: control point 1 of the three-point curve. -/
theorem hermite_passes_through_all_but_last_witness :
    calculatePoint threePointCurve Point.origin 0 (pointAt 1 10).time
      = some (true, (pointAt 1 10).position) :=
  hermite_passes_through_all_but_last threePointCurve Point.origin 0 1 (pointAt 1 10)
    (by decide) (by decide) (by decide) (by decide) (by decide) (by decide)

/-- C2, as stated, fails below the first control point: on the sorted Hermite
curve with times 0, 1, 2 the query time -5 is not greater than the last time,
yet no success is reported: the search yields index 0, the kernel reads
`controlPoints[2 ^ 32 - 1]` and the evaluation does not come back. -/
theorem success_below_first_counterexample :
    SortedByTime threePointCurve.controlPoints
    ∧ 2 ≤ threePointCurve.controlPoints.length
    ∧ threePointCurve.controlPoints.getLast? = some (pointAt 2 20)
    ∧ (-5 : ℚ) ≤ (pointAt 2 20).time
    ∧ findTimeInterval threePointCurve 2 (-5) = some (true, 0)
    ∧ calculatePoint threePointCurve Point.origin 2 (-5) = none := by
  rw [threePointCurve_eq]
  refine ⟨by decide, by decide, by decide, by rw [pointAt]; norm_num, ?_, ?_⟩
  · norm_num [findTimeInterval, findTimeIntervalLoop, pointAt]
  · norm_num [calculatePoint, checkRobust, findTimeInterval, findTimeIntervalLoop, pointAt,
      useHermiteCurve, uintModulus, hermiteCurve]

/-- The failure flag of `calculatePoint` on a curve with at least two points:
it is returned exactly for the queries past the last control point's time. -/
theorem calculatePoint_false_iff (c : Curve) (outputPoint : Point)
    (nextPoint : Nat) (time : ℚ) (last : CurvePoint)
    (h2 : 2 ≤ c.controlPoints.length) (hl : c.controlPoints.getLast? = some last) :
    (∃ p, calculatePoint c outputPoint nextPoint time = some (false, p)) ↔ time > last.time := by
  constructor
  · rintro ⟨p, hp⟩
    by_contra hnot
    exact calculatePoint_not_false_of_search c outputPoint p nextPoint _ time h2
      (findTimeInterval_in_range c nextPoint time last hl (not_lt.mp hnot)) hp
  · intro ht
    exact ⟨outputPoint, by
      simp [calculatePoint, checkRobust_of_two c h2,
        findTimeInterval_past_end c nextPoint time last hl ht]⟩

/-- C2, amended: for every curve holding at least 2 control points and every
query time, `calculatePoint` reports failure (output untouched) when the query
time is strictly greater than the last control point's time, and reports success
for every query time from the first control point's time up to, but excluding,
the last control point's time. -/
theorem calculatePoint_range (c : Curve) (outputPoint : Point)
    (nextPoint : Nat) (time : ℚ) (first last : CurvePoint)
    (h2 : 2 ≤ c.controlPoints.length) (hsize : c.controlPoints.length < uintModulus)
    (hf : c.controlPoints.head? = some first)
    (hl : c.controlPoints.getLast? = some last) :
    (time > last.time →
        calculatePoint c outputPoint nextPoint time = some (false, outputPoint))
    ∧ (first.time ≤ time → time < last.time →
        ∃ p, calculatePoint c outputPoint nextPoint time = some (true, p)) := by
  refine ⟨?_, ?_⟩
  · intro ht
    simp [calculatePoint, checkRobust_of_two c h2,
      findTimeInterval_past_end c nextPoint time last hl ht]
  · intro hlow hhigh
    obtain ⟨k, hk⟩ := exists_isFirstAfter time c.controlPoints
      ⟨last, List.mem_of_getLast?_eq_some hl, hhigh⟩
    have hfind := findTimeInterval_first_after c nextPoint time last k hl (le_of_lt hhigh) hk
    obtain ⟨⟨next, hnext, hgt⟩, _⟩ := hk
    have hklen : k < c.controlPoints.length := (List.getElem?_eq_some_iff.mp hnext).1
    have hk1 : 1 ≤ k := by
      rcases Nat.eq_zero_or_pos k with h0 | hpos
      · subst h0
        rw [List.head?_eq_getElem?] at hf
        rw [hf] at hnext
        cases hnext
        exact absurd hgt (not_lt.mpr hlow)
      · exact hpos
    have hprev : c.controlPoints[k - 1]? = some c.controlPoints[k - 1] :=
      List.getElem?_eq_getElem (by omega)
    exact calculatePoint_success_of_search c outputPoint nextPoint k time _ next h2 hk1
      (by omega) hprev hnext hfind

/-- Witness of the amended C2: the three-point curve queried at 3/2, inside the
range, and at 3, past the end. -/
theorem calculatePoint_range_witness :
    (∃ p, calculatePoint threePointCurve Point.origin 0 (3 / 2) = some (true, p))
    ∧ calculatePoint threePointCurve Point.origin 0 3 = some (false, Point.origin) :=
  ⟨(calculatePoint_range threePointCurve Point.origin 0 (3 / 2)
      (pointAt 0 0) (pointAt 2 20) (by decide) (by decide) (by decide) (by decide)).2
      (by rw [pointAt]; norm_num) (by rw [pointAt]; norm_num),
   (calculatePoint_range threePointCurve Point.origin 0 3
      (pointAt 0 0) (pointAt 2 20) (by decide) (by decide) (by decide) (by decide)).1
      (by rw [pointAt]; norm_num)⟩

/-- C3: a curve holding fewer than 2 control points fails every evaluation. For
every curve type, query time and entry values, `calculatePoint` returns the
failure flag with the output untouched; this holds for the curve just built from
a single start point, and also for the empty curve, on which the interval search
itself would be undefined: the early return comes before the search and the
kernels. -/
theorem calculatePoint_insufficient_points (c : Curve) (outputPoint : Point)
    (nextPoint : Nat) (time : ℚ) (h : c.controlPoints.length < 2) :
    calculatePoint c outputPoint nextPoint time = some (false, outputPoint)
    ∧ (∀ (startPoint : CurvePoint) (curveType : Int),
        calculatePoint (Curve.fromStartPoint startPoint curveType) outputPoint nextPoint time
          = some (false, outputPoint))
    ∧ (∀ curveType : Int,
        findTimeInterval ⟨[], curveType⟩ nextPoint time = none
        ∧ calculatePoint ⟨[], curveType⟩ outputPoint nextPoint time
            = some (false, outputPoint)) := by
  refine ⟨?_, ?_, ?_⟩
  · simp [calculatePoint, checkRobust, h]
  · intro startPoint curveType
    simp [calculatePoint, checkRobust, Curve.fromStartPoint]
  · intro curveType
    simp [calculatePoint, checkRobust, findTimeInterval]

/-- Witness of C3: the curve built from one start point, Catmull-Rom type. -/
theorem calculatePoint_insufficient_points_witness :
    calculatePoint (Curve.fromStartPoint (pointAt 0 0) catmullCurve) Point.origin 0 0
      = some (false, Point.origin) :=
  (calculatePoint_insufficient_points (Curve.fromStartPoint (pointAt 0 0) catmullCurve)
    Point.origin 0 0 (by decide)).1

/-! ## The kernel, coordinate by coordinate -/

theorem useHermiteCurve_two_coordinates (prev next : CurvePoint) (time : ℚ) :
    ∃ r, useHermiteCurve ⟨[prev, next], hermiteCurve⟩ 1 time = some r
      ∧ r.x = blendScalar prev.position.x prev.tangent.x next.position.x next.tangent.x
          prev.time next.time time
      ∧ r.y = blendScalar prev.position.y prev.tangent.y next.position.y next.tangent.y
          prev.time next.time time
      ∧ r.z = blendScalar prev.position.z prev.tangent.z next.position.z next.tangent.z
          prev.time next.time time := by
  have e1 : (1 + uintModulus - 1) % uintModulus = 0 := by
    rw [prevPoint_of_pos 1 (le_refl 1) (by decide)]
  simp only [useHermiteCurve, e1, List.getElem?_cons_zero, List.getElem?_cons_succ,
    Point.scale, Point.add, Point.addVector, Vector.scale, blendScalar]
  exact ⟨_, rfl, rfl, rfl, rfl⟩

/-- With both reads in bounds, every coordinate of the kernel is the scalar
blend of the matching coordinates. -/
theorem kernelCoordinate_eq (c : Curve) (i : Nat) (prev next : CurvePoint)
    (h1 : 1 ≤ i) (hi : i < uintModulus)
    (hprev : c.controlPoints[i - 1]? = some prev) (hnext : c.controlPoints[i]? = some next) :
    kernelCoordinate Point.x c i
        = blendScalar prev.position.x prev.tangent.x next.position.x next.tangent.x
            prev.time next.time
    ∧ kernelCoordinate Point.y c i
        = blendScalar prev.position.y prev.tangent.y next.position.y next.tangent.y
            prev.time next.time
    ∧ kernelCoordinate Point.z c i
        = blendScalar prev.position.z prev.tangent.z next.position.z next.tangent.z
            prev.time next.time := by
  refine ⟨?_, ?_, ?_⟩ <;> funext time <;>
    obtain ⟨r, hr, hx, hy, hz⟩ := useHermiteCurve_two_coordinates prev next time <;>
    simp only [kernelCoordinate, useHermiteCurve_local c i time prev next h1 hi hprev hnext,
      hr] <;>
    assumption

theorem blendScalar_eq_nonExpandedCubic (p0 m0 p1 m1 t0 t1 time : ℚ) (hdt : t1 - t0 ≠ 0) :
    blendScalar p0 m0 p1 m1 t0 t1 time
      = nonExpandedCubic p0 m0 p1 m1 (t1 - t0) (time - t0) := by
  simp only [blendScalar, nonExpandedCubic]
  field_simp
  ring

theorem blendScalar_eq_standardHermite (p0 m0 p1 m1 t0 t1 time : ℚ) (hdt : t1 - t0 ≠ 0) :
    blendScalar p0 m0 p1 m1 t0 t1 time
      = standardHermite p0 m0 p1 m1 (t1 - t0) ((time - t0) / (t1 - t0)) := by
  simp only [blendScalar, standardHermite, h00, h01, h10, h11]
  field_simp
  ring

/-- The derivative of the non-expanded cubic in the elapsed time. -/
theorem hasDerivAt_nonExpandedCubic (p0 m0 p1 m1 dt t0 x : ℚ) :
    HasDerivAt (fun t : ℚ => nonExpandedCubic p0 m0 p1 m1 dt (t - t0))
      (m0 + 2 * (3 * (p1 - p0) / dt ^ 2 - (2 * m0 + m1) / dt) * (x - t0)
        + 3 * (-2 * (p1 - p0) / dt ^ 3 + (m0 + m1) / dt ^ 2) * (x - t0) ^ 2) x := by
  have hid : HasDerivAt (fun t : ℚ => t - t0) 1 x := (hasDerivAt_id x).sub_const t0
  have h2 := hid.pow 2
  have h3 := hid.pow 3
  have h := (((h3.const_mul (-2 * (p1 - p0) / dt ^ 3 + (m0 + m1) / dt ^ 2)).const_add p0).add
    (h2.const_mul (3 * (p1 - p0) / dt ^ 2 - (2 * m0 + m1) / dt))).add (hid.const_mul m0)
  simp only [nonExpandedCubic]
  convert h using 1
  push_cast
  ring

/-- The scalar blend has slope `m0` at `t0` and slope `m1` at `t1`. -/
theorem hasDerivAt_blendScalar (p0 m0 p1 m1 t0 t1 : ℚ) (hdt : t1 - t0 ≠ 0) :
    HasDerivAt (blendScalar p0 m0 p1 m1 t0 t1) m0 t0
    ∧ HasDerivAt (blendScalar p0 m0 p1 m1 t0 t1) m1 t1 := by
  have hfun : blendScalar p0 m0 p1 m1 t0 t1
      = fun t : ℚ => nonExpandedCubic p0 m0 p1 m1 (t1 - t0) (t - t0) := by
    funext t
    exact blendScalar_eq_nonExpandedCubic p0 m0 p1 m1 t0 t1 t hdt
  rw [hfun]
  constructor
  · convert hasDerivAt_nonExpandedCubic p0 m0 p1 m1 (t1 - t0) t0 t0 using 1
    simp
  · convert hasDerivAt_nonExpandedCubic p0 m0 p1 m1 (t1 - t0) t0 t1 using 1
    field_simp
    ring

theorem point_eq_of_coordinates (r p : Point) (hx : r.x = p.x) (hy : r.y = p.y)
    (hz : r.z = p.z) : r = p := by
  cases r
  cases p
  simp only [Point.mk.injEq]
  exact ⟨hx, hy, hz⟩

theorem blendScalar_at_next (p0 m0 p1 m1 t0 t1 : ℚ) (hdt : t1 - t0 ≠ 0) :
    blendScalar p0 m0 p1 m1 t0 t1 t1 = p1 := by
  simp only [blendScalar]
  field_simp
  ring

theorem blendScalar_straight (p0 p1 t0 t1 time : ℚ) (hdt : t1 - t0 ≠ 0) :
    blendScalar p0 ((p1 - p0) / (t1 - t0)) p1 ((p1 - p0) / (t1 - t0)) t0 t1 time
      = p0 + (time - t0) / (t1 - t0) * (p1 - p0) := by
  simp only [blendScalar]
  field_simp
  ring

/-- Evaluated at the time of the next point, the kernel returns the position of
the next point, provided the two times differ. -/
theorem useHermiteCurve_at_next (prev next : CurvePoint) (hdt : next.time - prev.time ≠ 0) :
    useHermiteCurve ⟨[prev, next], hermiteCurve⟩ 1 next.time = some next.position := by
  obtain ⟨r, hr, hx, hy, hz⟩ := useHermiteCurve_two_coordinates prev next next.time
  rw [hr]
  rw [blendScalar_at_next _ _ _ _ _ _ hdt] at hx hy hz
  exact congrArg some (point_eq_of_coordinates r next.position hx hy hz)

/-! ## Claims on the Hermite kernel -/

/-- C11: Hermite tangent continuity. On a segment with both control points
present and `t0 ≠ t1`, the derivative of the kernel's output with respect to the
query time is the stored tangent `m0` at `time = t0` and the stored tangent `m1`
at `time = t1`; hence at a control point that also starts a segment, the
segment ending there and the segment starting there both have the stored
tangent of that point as derivative. -/
theorem hermite_tangent_continuity (c : Curve) (i : Nat) (prev next : CurvePoint)
    (h1 : 1 ≤ i) (hi : i < uintModulus)
    (hprev : c.controlPoints[i - 1]? = some prev) (hnext : c.controlPoints[i]? = some next)
    (hdt : next.time - prev.time ≠ 0) :
    HasTangentAt c i prev.tangent prev.time
    ∧ HasTangentAt c i next.tangent next.time
    ∧ ∀ after : CurvePoint, i + 1 < uintModulus → c.controlPoints[i + 1]? = some after →
        after.time - next.time ≠ 0 → HasTangentAt c (i + 1) next.tangent next.time := by
  have seg : ∀ (j : Nat) (a b : CurvePoint), 1 ≤ j → j < uintModulus →
      c.controlPoints[j - 1]? = some a → c.controlPoints[j]? = some b →
      b.time - a.time ≠ 0 →
      HasTangentAt c j a.tangent a.time ∧ HasTangentAt c j b.tangent b.time := by
    intro j a b hj1 hj ha hb hne
    obtain ⟨ex, ey, ez⟩ := kernelCoordinate_eq c j a b hj1 hj ha hb
    unfold HasTangentAt
    rw [ex, ey, ez]
    exact ⟨⟨(hasDerivAt_blendScalar _ _ _ _ _ _ hne).1, (hasDerivAt_blendScalar _ _ _ _ _ _ hne).1,
      (hasDerivAt_blendScalar _ _ _ _ _ _ hne).1⟩,
      ⟨(hasDerivAt_blendScalar _ _ _ _ _ _ hne).2, (hasDerivAt_blendScalar _ _ _ _ _ _ hne).2,
      (hasDerivAt_blendScalar _ _ _ _ _ _ hne).2⟩⟩
  refine ⟨(seg i prev next h1 hi hprev hnext hdt).1, (seg i prev next h1 hi hprev hnext hdt).2, ?_⟩
  intro after hi1 hafter hne
  exact (seg (i + 1) next after (by omega) hi1 (by simpa using hnext) hafter hne).1

/-- Witness of C11: the points (t=0, x=0, tangent 1), (t=2, x=4, tangent 3),
(t=3, x=5, tangent -1); the segment ending at index 1 and the one starting
there. -/
theorem hermite_tangent_continuity_witness :
    HasTangentAt
      ⟨[⟨⟨0, 0, 0⟩, ⟨1, 0, 0⟩, 0⟩, ⟨⟨4, 0, 0⟩, ⟨3, 0, 0⟩, 2⟩, ⟨⟨5, 0, 0⟩, ⟨-1, 0, 0⟩, 3⟩],
        hermiteCurve⟩ 1 ⟨3, 0, 0⟩ 2
    ∧ HasTangentAt
      ⟨[⟨⟨0, 0, 0⟩, ⟨1, 0, 0⟩, 0⟩, ⟨⟨4, 0, 0⟩, ⟨3, 0, 0⟩, 2⟩, ⟨⟨5, 0, 0⟩, ⟨-1, 0, 0⟩, 3⟩],
        hermiteCurve⟩ 2 ⟨3, 0, 0⟩ 2 :=
  have h := hermite_tangent_continuity
    ⟨[⟨⟨0, 0, 0⟩, ⟨1, 0, 0⟩, 0⟩, ⟨⟨4, 0, 0⟩, ⟨3, 0, 0⟩, 2⟩, ⟨⟨5, 0, 0⟩, ⟨-1, 0, 0⟩, 3⟩],
      hermiteCurve⟩ 1 ⟨⟨0, 0, 0⟩, ⟨1, 0, 0⟩, 0⟩ ⟨⟨4, 0, 0⟩, ⟨3, 0, 0⟩, 2⟩
    (by decide) (by decide) (by decide) (by decide) (by norm_num)
  ⟨h.2.1, h.2.2 ⟨⟨5, 0, 0⟩, ⟨-1, 0, 0⟩, 3⟩ (by decide) (by decide) (by norm_num)⟩

/-- C12: straight-line reproduction. On a segment with both control points
present, `t0 ≠ t1` and both stored tangents equal to `(P1 - P0)/(t1 - t0)`, the
kernel's output at every query time is the linear interpolation
`P0 + ((time - t0)/(t1 - t0))·(P1 - P0)`; and when the interval search of a
Hermite curve selects that segment, `calculatePoint` succeeds with that
position. -/
theorem straight_line_reproduction (c : Curve) (i : Nat) (time : ℚ)
    (prev next : CurvePoint) (h1 : 1 ≤ i) (hi : i < uintModulus)
    (hprev : c.controlPoints[i - 1]? = some prev) (hnext : c.controlPoints[i]? = some next)
    (hdt : next.time - prev.time ≠ 0)
    (hm0 : prev.tangent = segmentSlope prev next)
    (hm1 : next.tangent = segmentSlope prev next) :
    useHermiteCurve c i time = some (linearInterpolation prev next time)
    ∧ ∀ (outputPoint : Point) (nextPoint : Nat), c.type = hermiteCurve →
        2 ≤ c.controlPoints.length → findTimeInterval c nextPoint time = some (true, i) →
        calculatePoint c outputPoint nextPoint time
          = some (true, linearInterpolation prev next time) := by
  have hk : useHermiteCurve c i time = some (linearInterpolation prev next time) := by
    obtain ⟨r, hr, hx, hy, hz⟩ := useHermiteCurve_two_coordinates prev next time
    rw [useHermiteCurve_local c i time prev next h1 hi hprev hnext, hr]
    rw [hm0, hm1] at hx hy hz
    simp only [segmentSlope] at hx hy hz
    rw [blendScalar_straight _ _ _ _ _ hdt] at hx hy hz
    exact congrArg some (point_eq_of_coordinates r _ hx hy hz)
  refine ⟨hk, ?_⟩
  intro outputPoint nextPoint hty h2 hfind
  rw [calculatePoint_hermite_of_search c outputPoint nextPoint i time h2 hty hfind, hk]
  rfl

theorem straightLineCurve_eq :
    straightLineCurve
      = ⟨[⟨⟨0, 0, 0⟩, ⟨1, 0, 0⟩, 0⟩, ⟨⟨1, 0, 0⟩, ⟨1, 0, 0⟩, 1⟩], 0⟩ := by decide

/-- Witness of C12: the Hermite curve through (t=0, pos=(0,0), tan=(1,0)) and
(t=1, pos=(1,0), tan=(1,0)) gives `calculatePoint(1/2)` = success with position
`(1/2, 0)`. -/
theorem straight_line_reproduction_witness :
    calculatePoint straightLineCurve Point.origin 0 (1 / 2) = some (true, ⟨1 / 2, 0, 0⟩) := by
  have h := (straight_line_reproduction straightLineCurve 1 (1 / 2)
    ⟨⟨0, 0, 0⟩, ⟨1, 0, 0⟩, 0⟩ ⟨⟨1, 0, 0⟩, ⟨1, 0, 0⟩, 1⟩
    (by decide) (by decide) (by decide) (by decide) (by norm_num)
    (by norm_num [segmentSlope]) (by norm_num [segmentSlope])).2 Point.origin 0
    (by decide) (by decide)
    (by rw [straightLineCurve_eq]; norm_num [findTimeInterval, findTimeIntervalLoop])
  rw [h]
  norm_num [linearInterpolation]

/-- C17: the mixed-scale kernel is the standard cubic Hermite spline on a
non-uniform interval. On a segment with both control points present and
`dt = t1 - t0 ≠ 0`, with `s = (time - t0)/dt` and `e = time - t0`, every
coordinate of the kernel's output equals
`h00(s)·P0 + h10(s)·dt·m0 + h01(s)·P1 + h11(s)·dt·m1`, and equals the cubic
`d + c·e + b·e² + a·e³` of the non-expanded form kept as a comment in the
source. -/
theorem hermite_is_standard_cubic (c : Curve) (i : Nat) (time : ℚ)
    (prev next : CurvePoint) (h1 : 1 ≤ i) (hi : i < uintModulus)
    (hprev : c.controlPoints[i - 1]? = some prev) (hnext : c.controlPoints[i]? = some next)
    (hdt : next.time - prev.time ≠ 0) :
    ∃ r, useHermiteCurve c i time = some r
      ∧ r.x = standardHermite prev.position.x prev.tangent.x next.position.x next.tangent.x
          (next.time - prev.time) ((time - prev.time) / (next.time - prev.time))
      ∧ r.y = standardHermite prev.position.y prev.tangent.y next.position.y next.tangent.y
          (next.time - prev.time) ((time - prev.time) / (next.time - prev.time))
      ∧ r.z = standardHermite prev.position.z prev.tangent.z next.position.z next.tangent.z
          (next.time - prev.time) ((time - prev.time) / (next.time - prev.time))
      ∧ r.x = nonExpandedCubic prev.position.x prev.tangent.x next.position.x next.tangent.x
          (next.time - prev.time) (time - prev.time)
      ∧ r.y = nonExpandedCubic prev.position.y prev.tangent.y next.position.y next.tangent.y
          (next.time - prev.time) (time - prev.time)
      ∧ r.z = nonExpandedCubic prev.position.z prev.tangent.z next.position.z next.tangent.z
          (next.time - prev.time) (time - prev.time) := by
  obtain ⟨r, hr, hx, hy, hz⟩ := useHermiteCurve_two_coordinates prev next time
  refine ⟨r, ?_, ?_, ?_, ?_, ?_, ?_, ?_⟩
  · rw [useHermiteCurve_local c i time prev next h1 hi hprev hnext, hr]
  · rw [hx, blendScalar_eq_standardHermite _ _ _ _ _ _ _ hdt]
  · rw [hy, blendScalar_eq_standardHermite _ _ _ _ _ _ _ hdt]
  · rw [hz, blendScalar_eq_standardHermite _ _ _ _ _ _ _ hdt]
  · rw [hx, blendScalar_eq_nonExpandedCubic _ _ _ _ _ _ _ hdt]
  · rw [hy, blendScalar_eq_nonExpandedCubic _ _ _ _ _ _ _ hdt]
  · rw [hz, blendScalar_eq_nonExpandedCubic _ _ _ _ _ _ _ hdt]

/-- Witness of C17: the segment from (t=0, x=0, tangent 1) to (t=2, x=4,
tangent 3), evaluated at time 1: the kernel gives `x = 3/2`, and so do both
forms. -/
theorem hermite_is_standard_cubic_witness :
    useHermiteCurve
        ⟨[⟨⟨0, 0, 0⟩, ⟨1, 0, 0⟩, 0⟩, ⟨⟨4, 0, 0⟩, ⟨3, 0, 0⟩, 2⟩], hermiteCurve⟩ 1 1
      = some ⟨3 / 2, 0, 0⟩
    ∧ standardHermite 0 1 4 3 (2 - 0) ((1 - 0) / (2 - 0)) = 3 / 2
    ∧ nonExpandedCubic 0 1 4 3 (2 - 0) (1 - 0) = 3 / 2 := by
  obtain ⟨r, hr, hx, hy, hz, hx2, _, _⟩ := hermite_is_standard_cubic
    ⟨[⟨⟨0, 0, 0⟩, ⟨1, 0, 0⟩, 0⟩, ⟨⟨4, 0, 0⟩, ⟨3, 0, 0⟩, 2⟩], hermiteCurve⟩ 1 1
    ⟨⟨0, 0, 0⟩, ⟨1, 0, 0⟩, 0⟩ ⟨⟨4, 0, 0⟩, ⟨3, 0, 0⟩, 2⟩
    (by decide) (by decide) (by decide) (by decide) (by norm_num)
  have e1 : standardHermite 0 1 4 3 (2 - 0) ((1 - 0) / (2 - 0)) = 3 / 2 := by
    norm_num [standardHermite, h00, h01, h10, h11]
  have e2 : nonExpandedCubic 0 1 4 3 (2 - 0) (1 - 0) = 3 / 2 := by
    norm_num [nonExpandedCubic]
  refine ⟨?_, e1, e2⟩
  rw [hr]
  refine congrArg some (point_eq_of_coordinates r _ ?_ ?_ ?_)
  · rw [hx]; exact e1
  · rw [hy]; norm_num [standardHermite, h00, h01, h10, h11]
  · rw [hz]; norm_num [standardHermite, h00, h01, h10, h11]

/-- C18: positional continuity at joints. On a segment with both control points
present and distinct times, the kernel evaluated at the right endpoint's time
returns the right control point's position and evaluated at the left endpoint's
time returns the left one; hence at a control point that also starts a segment,
the segment ending there and the segment starting there give the same
position. -/
theorem positional_continuity (c : Curve) (i : Nat) (prev next : CurvePoint)
    (h1 : 1 ≤ i) (hi : i < uintModulus)
    (hprev : c.controlPoints[i - 1]? = some prev) (hnext : c.controlPoints[i]? = some next)
    (hdt : next.time - prev.time ≠ 0) :
    useHermiteCurve c i next.time = some next.position
    ∧ useHermiteCurve c i prev.time = some prev.position
    ∧ ∀ after : CurvePoint, i + 1 < uintModulus → c.controlPoints[i + 1]? = some after →
        after.time - next.time ≠ 0 →
        useHermiteCurve c (i + 1) next.time = some next.position
          ∧ useHermiteCurve c (i + 1) next.time = useHermiteCurve c i next.time := by
  have hright : useHermiteCurve c i next.time = some next.position := by
    rw [useHermiteCurve_local c i next.time prev next h1 hi hprev hnext,
      useHermiteCurve_at_next prev next hdt]
  refine ⟨hright, ?_, ?_⟩
  · rw [useHermiteCurve_local c i prev.time prev next h1 hi hprev hnext,
      useHermiteCurve_at_prev]
  · intro after hi1 hafter _
    have hleft : useHermiteCurve c (i + 1) next.time = some next.position := by
      rw [useHermiteCurve_local c (i + 1) next.time next after (by omega) hi1
        (by simpa using hnext) hafter, useHermiteCurve_at_prev]
    exact ⟨hleft, hleft.trans hright.symm⟩

/-- Witness of C18: control point 1 of the three-point curve, reached from the
segment `[0, 1]` and from the segment `[1, 2]`. -/
theorem positional_continuity_witness :
    useHermiteCurve threePointCurve 1 (pointAt 1 10).time = some (pointAt 1 10).position
    ∧ useHermiteCurve threePointCurve 2 (pointAt 1 10).time = some (pointAt 1 10).position :=
  have h := positional_continuity threePointCurve 1 (pointAt 0 0) (pointAt 1 10)
    (by decide) (by decide) (by decide) (by decide) (by rw [pointAt, pointAt]; norm_num)
  ⟨h.1, (h.2.2 (pointAt 2 20) (by decide) (by decide)
    (by rw [pointAt, pointAt]; norm_num)).1⟩

/-! ## In-range queries -/

/-- For a query from the first time up to, but excluding, the last time, the
first index after the query exists, is at least 1, and the two points around it
bracket the query. -/
theorem in_range_bracket (c : Curve) (time : ℚ) (first last : CurvePoint)
    (hf : c.controlPoints.head? = some first) (hl : c.controlPoints.getLast? = some last)
    (hlow : first.time ≤ time) (hhigh : time < last.time) :
    ∃ (i : Nat) (prev next : CurvePoint), IsFirstAfter c.controlPoints time i
      ∧ 1 ≤ i ∧ i < c.controlPoints.length
      ∧ c.controlPoints[i - 1]? = some prev ∧ c.controlPoints[i]? = some next
      ∧ prev.time ≤ time ∧ time < next.time := by
  obtain ⟨k, hk⟩ := exists_isFirstAfter time c.controlPoints
    ⟨last, List.mem_of_getLast?_eq_some hl, hhigh⟩
  obtain ⟨⟨next, hnext, hgt⟩, hbefore⟩ := hk
  have hklen : k < c.controlPoints.length := (List.getElem?_eq_some_iff.mp hnext).1
  have hk1 : 1 ≤ k := by
    rcases Nat.eq_zero_or_pos k with h0 | hpos
    · subst h0
      rw [List.head?_eq_getElem?] at hf
      rw [hf] at hnext
      cases hnext
      exact absurd hgt (not_lt.mpr hlow)
    · exact hpos
  have hprev : c.controlPoints[k - 1]? = some c.controlPoints[k - 1] :=
    List.getElem?_eq_getElem (by omega)
  exact ⟨k, c.controlPoints[k - 1], next, ⟨⟨next, hnext, hgt⟩, hbefore⟩, hk1, hklen, hprev,
    hnext, hbefore (k - 1) _ (by omega) hprev, hgt⟩

theorem sorted_distinct_of_increasing (l : List CurvePoint) (h : StrictlyIncreasingTimes l) :
    SortedByTime l ∧ DistinctTimes l := by
  unfold StrictlyIncreasingTimes at h
  exact ⟨h.imp (fun hlt => le_of_lt hlt), h.imp (fun hlt => ne_of_lt hlt)⟩

/-! ## Claims on the curve state and on in-range evaluation -/

/-- C13, evaluated on the code: on the Catmull-Rom curve with points at times 0,
1, 2 and positions 0, 10, 20 the query at the time of control point 1 reports
success with the default point, whatever the entry values, because the kernel
`useCatmullCurve` is a stub; the position of control point 1 is `(10, 0, 0)`. -/
theorem catmull_stub_returns_default_point :
    catmullThreePointCurve.type = catmullCurve
    ∧ DistinctTimes catmullThreePointCurve.controlPoints
    ∧ catmullThreePointCurve.controlPoints[1]? = some (pointAt 1 10)
    ∧ calculatePoint catmullThreePointCurve ⟨7, 7, 7⟩ 0 (pointAt 1 10).time
        = some (true, Point.origin)
    ∧ Point.origin ≠ (pointAt 1 10).position := by
  have e : catmullThreePointCurve = ⟨[pointAt 0 0, pointAt 1 10, pointAt 2 20], 1⟩ := by
    decide
  rw [e]
  refine ⟨by decide, by decide, by decide, ?_, by decide⟩
  norm_num [calculatePoint, checkRobust, findTimeInterval, findTimeIntervalLoop, pointAt,
    hermiteCurve, catmullCurve, useCatmullCurve]

/-- C14: `checkRobust` is true exactly on the curves holding at least 2 control
points; a curve on which it is true keeps it true after `addControlPoint` and
after `addControlPoints`; a curve built from a single start point has it false
and gets it true by its first `addControlPoint`. -/
theorem checkRobust_iff_two_points :
    (∀ c : Curve, checkRobust c = true ↔ 2 ≤ c.controlPoints.length)
    ∧ (∀ (c : Curve) (p : CurvePoint), checkRobust c = true →
        checkRobust (addControlPoint c p) = true)
    ∧ (∀ (c : Curve) (l : List CurvePoint), checkRobust c = true →
        checkRobust (addControlPoints c l) = true)
    ∧ (∀ (startPoint p : CurvePoint) (curveType : Int),
        checkRobust (Curve.fromStartPoint startPoint curveType) = false
        ∧ checkRobust (addControlPoint (Curve.fromStartPoint startPoint curveType) p)
            = true) := by
  have hiff : ∀ c : Curve, checkRobust c = true ↔ 2 ≤ c.controlPoints.length := by
    intro c
    unfold checkRobust
    by_cases h : c.controlPoints.length < 2
    · simp [h]
    · simp only [h, if_false, true_iff]
      omega
  have hlen1 : ∀ (c : Curve) (p : CurvePoint),
      (addControlPoint c p).controlPoints.length = c.controlPoints.length + 1 := by
    intro c p
    rw [addControlPoint_controlPoints, (stdSort_perm _ _).length_eq, List.length_append,
      List.length_singleton]
  have hlen2 : ∀ (c : Curve) (l : List CurvePoint),
      (addControlPoints c l).controlPoints.length = c.controlPoints.length + l.length := by
    intro c l
    rw [addControlPoints_controlPoints, (stdSort_perm _ _).length_eq, List.length_append]
  refine ⟨hiff, ?_, ?_, ?_⟩
  · intro c p h
    rw [hiff] at h ⊢
    rw [hlen1]
    omega
  · intro c l h
    rw [hiff] at h ⊢
    rw [hlen2]
    omega
  · intro startPoint p curveType
    refine ⟨?_, ?_⟩
    · simp [checkRobust, Curve.fromStartPoint]
    · rw [hiff, hlen1]
      simp [Curve.fromStartPoint]

/-- Witness of C14: the two-point curve stays ready after one more point. -/
theorem checkRobust_iff_two_points_witness :
    checkRobust (addControlPoint twoPointCurve (pointAt 5 3)) = true :=
  checkRobust_iff_two_points.2.1 twoPointCurve (pointAt 5 3) (by decide)

/-- C15, evaluated on the code: on the two-point Hermite curve with times 0 and
1, no control point has a time above the query 1, yet `calculatePoint` does not
return false: with the stale index 1 it returns true (with the position of the
segment `[0, 1]` at its end), with the stale index 0 the kernel reads out of
bounds. -/
theorem end_of_curve_not_reported :
    (∀ p ∈ twoPointCurve.controlPoints, p.time ≤ 1)
    ∧ findTimeInterval twoPointCurve 1 1 = some (true, 1)
    ∧ calculatePoint twoPointCurve Point.origin 1 1 = some (true, ⟨10, 0, 0⟩)
    ∧ calculatePoint twoPointCurve Point.origin 0 1 = none := by
  rw [twoPointCurve_eq]
  refine ⟨by decide, ?_, ?_, ?_⟩
  · norm_num [findTimeInterval, findTimeIntervalLoop, pointAt]
  · norm_num [calculatePoint, checkRobust, findTimeInterval, findTimeIntervalLoop, pointAt,
      useHermiteCurve, uintModulus, hermiteCurve, Point.scale, Point.add, Point.addVector,
      Vector.scale]
  · norm_num [calculatePoint, checkRobust, findTimeInterval, findTimeIntervalLoop, pointAt,
      useHermiteCurve, uintModulus, hermiteCurve]

/-- C16: bracketing. For every curve (duplicate times allowed) and every query
time with `controlPoints[0].time ≤ time < last time`, the interval search
succeeds with an index `i ≥ 1`, the pair `(i-1, i)` satisfies
`controlPoints[i-1].time ≤ time < controlPoints[i].time`, and the normalized
parameter `s = (time - t0)/(t1 - t0)` of that pair lies in `[0, 1]` (the
sortedness of the sequence is not needed for this). -/
theorem bracketing_interval (c : Curve) (nextPoint : Nat) (time : ℚ)
    (first last : CurvePoint)
    (hf : c.controlPoints.head? = some first) (hl : c.controlPoints.getLast? = some last)
    (hlow : first.time ≤ time) (hhigh : time < last.time) :
    ∃ (i : Nat) (prev next : CurvePoint),
      findTimeInterval c nextPoint time = some (true, i)
      ∧ 1 ≤ i
      ∧ c.controlPoints[i - 1]? = some prev ∧ c.controlPoints[i]? = some next
      ∧ prev.time ≤ time ∧ time < next.time
      ∧ 0 ≤ (time - prev.time) / (next.time - prev.time)
      ∧ (time - prev.time) / (next.time - prev.time) ≤ 1 := by
  obtain ⟨i, prev, next, hfirst, h1, _, hprev, hnext, hle, hlt⟩ :=
    in_range_bracket c time first last hf hl hlow hhigh
  have hdt : 0 < next.time - prev.time := by linarith
  refine ⟨i, prev, next,
    findTimeInterval_first_after c nextPoint time last i hl (le_of_lt hhigh) hfirst,
    h1, hprev, hnext, hle, hlt, ?_, ?_⟩
  · exact div_nonneg (by linarith) (le_of_lt hdt)
  · rw [div_le_one hdt]
    linarith

/-- Witness of C16: the three-point curve and the query 3/2, bracketed by the
points at times 1 and 2. -/
theorem bracketing_interval_witness :
    ∃ (i : Nat) (prev next : CurvePoint),
      findTimeInterval threePointCurve 0 (3 / 2) = some (true, i)
      ∧ 1 ≤ i
      ∧ threePointCurve.controlPoints[i - 1]? = some prev
      ∧ threePointCurve.controlPoints[i]? = some next
      ∧ prev.time ≤ 3 / 2 ∧ 3 / 2 < next.time
      ∧ 0 ≤ (3 / 2 - prev.time) / (next.time - prev.time)
      ∧ (3 / 2 - prev.time) / (next.time - prev.time) ≤ 1 :=
  bracketing_interval threePointCurve 0 (3 / 2) (pointAt 0 0) (pointAt 2 20)
    (by decide) (by decide) (by rw [pointAt]; norm_num) (by rw [pointAt]; norm_num)

/-- C19: kernel evaluation is error-free on in-range queries. For every curve of
fewer than `2 ^ 32` control points (duplicate times allowed) and every query
time with `controlPoints[0].time ≤ time < last time`, the interval search
assigns the index (the same `i` whatever the variable held before), `1 ≤ i` and
`i` is below the number of control points, the unsigned `i - 1` does not wrap,
both `controlPoints[i-1]` and `controlPoints[i]` are in bounds, the denominator
`controlPoints[i].time - controlPoints[i-1].time` is strictly positive, and the
kernel returns a point. -/
theorem in_range_evaluation_safe (c : Curve) (time : ℚ) (first last : CurvePoint)
    (hsize : c.controlPoints.length < uintModulus)
    (hf : c.controlPoints.head? = some first) (hl : c.controlPoints.getLast? = some last)
    (hlow : first.time ≤ time) (hhigh : time < last.time) :
    ∃ (i : Nat) (prev next : CurvePoint),
      (∀ nextPoint : Nat, findTimeInterval c nextPoint time = some (true, i))
      ∧ 1 ≤ i ∧ i < c.controlPoints.length
      ∧ (i + uintModulus - 1) % uintModulus = i - 1
      ∧ c.controlPoints[i - 1]? = some prev ∧ c.controlPoints[i]? = some next
      ∧ 0 < next.time - prev.time
      ∧ ∃ r, useHermiteCurve c i time = some r := by
  obtain ⟨i, prev, next, hfirst, h1, hlen, hprev, hnext, hle, hlt⟩ :=
    in_range_bracket c time first last hf hl hlow hhigh
  have hi : i < uintModulus := by omega
  refine ⟨i, prev, next, ?_, h1, hlen, prevPoint_of_pos i h1 hi, hprev, hnext, by linarith, ?_⟩
  · intro nextPoint
    exact findTimeInterval_first_after c nextPoint time last i hl (le_of_lt hhigh) hfirst
  · obtain ⟨r, hr⟩ := useHermiteCurve_two_isSome prev next time
    exact ⟨r, by rw [useHermiteCurve_local c i time prev next h1 hi hprev hnext, hr]⟩

/-- Witness of C19: the three-point curve and the query 1/2. -/
theorem in_range_evaluation_safe_witness :
    ∃ (i : Nat) (prev next : CurvePoint),
      (∀ nextPoint : Nat, findTimeInterval threePointCurve nextPoint (1 / 2) = some (true, i))
      ∧ 1 ≤ i ∧ i < threePointCurve.controlPoints.length
      ∧ (i + uintModulus - 1) % uintModulus = i - 1
      ∧ threePointCurve.controlPoints[i - 1]? = some prev
      ∧ threePointCurve.controlPoints[i]? = some next
      ∧ 0 < next.time - prev.time
      ∧ ∃ r, useHermiteCurve threePointCurve i (1 / 2) = some r :=
  in_range_evaluation_safe threePointCurve (1 / 2) (pointAt 0 0) (pointAt 2 20)
    (by decide) (by decide) (by decide) (by rw [pointAt]; norm_num)
    (by rw [pointAt]; norm_num)

/-- C20: on every Hermite curve with strictly increasing times (fewer than
`2 ^ 32` control points) and for every control point `k` except the last,
`calculatePoint(controlPoints[k].time)` returns success, the interval search
yields next index `k + 1`, and the output position equals
`controlPoints[k].position`, whatever the tangents, the other control points and
the entry values. -/
theorem hermite_hits_every_point_but_last (c : Curve) (outputPoint : Point)
    (nextPoint k : Nat) (p : CurvePoint)
    (hty : c.type = hermiteCurve) (hsize : c.controlPoints.length < uintModulus)
    (hinc : StrictlyIncreasingTimes c.controlPoints)
    (hk : k + 1 < c.controlPoints.length) (hp : c.controlPoints[k]? = some p) :
    findTimeInterval c nextPoint p.time = some (true, k + 1)
    ∧ calculatePoint c outputPoint nextPoint p.time = some (true, p.position) := by
  obtain ⟨hs, hd⟩ := sorted_distinct_of_increasing _ hinc
  have hfind := findTimeInterval_at_point_time c nextPoint k p hs hd hk hp
  refine ⟨hfind, ?_⟩
  rw [calculatePoint_hermite_of_search c outputPoint nextPoint (k + 1) p.time (by omega) hty
    hfind]
  have hnext : c.controlPoints[k + 1]? = some c.controlPoints[k + 1] :=
    List.getElem?_eq_getElem hk
  rw [useHermiteCurve_local c (k + 1) p.time p c.controlPoints[k + 1] (by omega) (by omega)
    (by simpa using hp) hnext, useHermiteCurve_at_prev]
  rfl

/-- Witness of C20: control point 0 of the three-point curve. -/
theorem hermite_hits_every_point_but_last_witness :
    findTimeInterval threePointCurve 9 (pointAt 0 0).time = some (true, 0 + 1)
    ∧ calculatePoint threePointCurve ⟨7, 7, 7⟩ 9 (pointAt 0 0).time
        = some (true, (pointAt 0 0).position) :=
  hermite_hits_every_point_but_last threePointCurve ⟨7, 7, 7⟩ 9 0 (pointAt 0 0)
    (by decide) (by decide) (by decide) (by decide) (by decide)

/-! ## Insertion order and evaluation -/

end Util
